import Mathlib

/-!
Verification of the viberecipe extraction/normalization/adaptation pipeline.

Shallow embedding of the relevant source functions:
- `src/lib/utils.ts`: `parseDuration`, `parseServings`, `cleanAuthToken`
- `src/lib/tandoor-client.ts`: `TandoorClient.fetchWithAuthFallback`,
  `TandoorClient.createRecipe`, `TandoorClient.getAuthHeader`, `refineTandoorSteps`
- `src/app/api/tandoor/route.ts`: `mapSteps`
- `src/app/api/extract/route.ts`: `fetchUrlContent`, `cleanJsonResponse`,
  `normalizeImage`, `generateFallbackImageUrl` and the image-resolution step of `POST`

JavaScript strings are modelled as `List Char` (wrapped into `String` where
convenient); network effects (`fetch`) are modelled by explicit outcome values
or oracle functions passed in as parameters.
-/

namespace VibeRecipe

/-- JavaScript whitespace test used by `trim` and `\s`; the embedding covers the
ASCII whitespace characters (space, tab, CR, LF), which is `Char.isWhitespace`. -/
def jsWS (c : Char) : Bool := c.isWhitespace

/-- Embedding of JavaScript `String.prototype.trim`: drop leading and trailing
whitespace. -/
def jsTrim (s : List Char) : List Char :=
  ((s.dropWhile jsWS).reverse.dropWhile jsWS).reverse

/-- Numeric value of a list of decimal digit characters, as read left to right
(the behaviour of JavaScript `parseInt` on an all-digit string). -/
def digitsToNat (ds : List Char) : Nat :=
  ds.foldl (fun acc c => acc * 10 + (c.toNat - 48)) 0

/-- The remainder of the input starting at the first occurrence of character
`t`, or `none` when `t` does not occur.  Used to embed the unanchored regex
searches in `utils.ts` and the extract route. -/
def fromChar (t : Char) : List Char → Option (List Char)
  | [] => none
  | c :: rest => if c = t then some (c :: rest) else fromChar t rest

/-- The remainder of the input after the first occurrence of the two-character
sequence `PT`, or `none` when it does not occur: the search performed by the
regex `/PT(?:(\d+)H)?(?:(\d+)M)?/` for its mandatory literal part. -/
def afterPT : List Char → Option (List Char)
  | [] => none
  | 'P' :: 'T' :: rest => some rest
  | _ :: rest => afterPT rest

/-- Embedding of one optional regex group `(?:(\d+)X)?` at the current
position: read a maximal digit run; if it is non-empty and the character
`x` follows, the group matches (value and rest-after-`x`), otherwise the
group is skipped and the position is unchanged (JavaScript gives the missing
group the value `parseInt('0') = 0`). -/
def tryNumSuffix (x : Char) (cs : List Char) : Nat × List Char :=
  if cs.takeWhile Char.isDigit ≠ [] ∧ (cs.dropWhile Char.isDigit).head? = some x then
    (digitsToNat (cs.takeWhile Char.isDigit), (cs.dropWhile Char.isDigit).tail)
  else (0, cs)

/-- Embedding of `parseDuration` from `src/lib/utils.ts`: `undefined` or the
empty string (both falsy) give 0; otherwise search for `PT`, read an optional
`(\d+)H` group and then an optional `(\d+)M` group, and return
`hours * 60 + minutes`; when `PT` does not occur the regex fails to match and
the result is 0. -/
def parseDuration (iso : Option String) : Nat :=
  match iso with
  | none => 0
  | some s =>
    if s.data = [] then 0
    else
      match afterPT s.data with
      | none => 0
      | some rest =>
        let hm := tryNumSuffix 'H' rest
        let mm := tryNumSuffix 'M' hm.2
        hm.1 * 60 + mm.1

/-- The `yieldValue` argument of `parseServings`: `string | number | undefined`.
JavaScript numbers are embedded as integers (every value the adapter is claimed
about is integral). -/
inductive YieldValue where
  | absent
  | num (n : Int)
  | str (s : String)
deriving DecidableEq, Repr

/-- Result shape of `parseServings`. -/
structure ServingsResult where
  amount : Int
  text : String
deriving DecidableEq, Repr

/-- First maximal digit run of the input, or `none` when it has no digit:
the match of the regex `/(\d+)/`. -/
def firstDigitRun : List Char → Option (List Char)
  | [] => none
  | c :: rest =>
    if c.isDigit then some (c :: rest.takeWhile Char.isDigit) else firstDigitRun rest

/-- Embedding of `parseServings` from `src/lib/utils.ts`.  Falsy input
(`undefined`, the number 0, the empty string) gives `{amount: 1, text: ''}`;
a number is returned as the amount with empty text; a string yields the value
of its first embedded digit run (default 1) and its trimmed self as text. -/
def parseServings : YieldValue → ServingsResult
  | .absent => ⟨1, ""⟩
  | .num n => if n = 0 then ⟨1, ""⟩ else ⟨n, ""⟩
  | .str s =>
    if s.data = [] then ⟨1, ""⟩
    else
      let amount : Int :=
        match firstDigitRun s.data with
        | some ds => (digitsToNat ds : Int)
        | none => 1
      ⟨amount, ⟨jsTrim s.data⟩⟩

/-- Splitting lemma: `takeWhile`/`dropWhile` on an append whose left part
satisfies the predicate everywhere and whose right part starts with a failing
character (or is empty). -/
theorem takeWhile_split {p : Char → Bool} {l r : List Char}
    (hl : ∀ c ∈ l, p c = true) (hr : ∀ x, r.head? = some x → p x = false) :
    (l ++ r).takeWhile p = l ∧ (l ++ r).dropWhile p = r := by
  induction l with
  | nil =>
    cases r with
    | nil => exact ⟨rfl, rfl⟩
    | cons x xs =>
      have hx := hr x rfl
      simp [List.takeWhile_cons, List.dropWhile_cons, hx]
  | cons c cs ih =>
    have hc := hl c (by simp)
    have ihh := ih (fun d hd => hl d (by simp [hd]))
    simp [List.takeWhile_cons, List.dropWhile_cons, hc, ihh.1, ihh.2]

/-- `tryNumSuffix` succeeds on a non-empty digit run followed by the expected
marker character. -/
theorem tryNumSuffix_hit {x : Char} (hx : x.isDigit = false) {ds : List Char}
    (hne : ds ≠ []) (hds : ∀ c ∈ ds, c.isDigit = true) (rest : List Char) :
    tryNumSuffix x (ds ++ x :: rest) = (digitsToNat ds, rest) := by
  have hsplit := takeWhile_split (p := Char.isDigit) (r := x :: rest) hds
    (fun y hy => by
      simp only [List.head?_cons, Option.some.injEq] at hy
      subst hy; exact hx)
  simp only [tryNumSuffix, hsplit.1, hsplit.2]
  simp [hne]

/-- `tryNumSuffix` is skipped when the digit run is followed by a non-digit
character other than the expected marker. -/
theorem tryNumSuffix_miss {x y : Char} (hy : y.isDigit = false) (hxy : y ≠ x)
    {ds : List Char} (hds : ∀ c ∈ ds, c.isDigit = true) (rest : List Char) :
    tryNumSuffix x (ds ++ y :: rest) = (0, ds ++ y :: rest) := by
  have hsplit := takeWhile_split (p := Char.isDigit) (r := y :: rest) hds
    (fun z hz => by
      simp only [List.head?_cons, Option.some.injEq] at hz
      subst hz; exact hy)
  simp only [tryNumSuffix, hsplit.1, hsplit.2]
  simp [hxy]

/-- `tryNumSuffix` is skipped on the empty remainder. -/
theorem tryNumSuffix_nil (x : Char) : tryNumSuffix x [] = (0, []) := rfl

/-- Claim C7: for every string of the `PT#H#M` pattern (hour and minute digit
components each optional), `parseDuration` returns `hours * 60 + minutes`, a
missing component counting as 0; for absent input or input without the literal
`PT` it returns 0; and in particular `parseDuration "PT1H30M" = 90`,
`parseDuration "PT45M" = 45`, `parseDuration undefined = 0`, and
`parseDuration "garbage" = 0`. -/
theorem parseDuration_spec (hd md : List Char)
    (h1 : hd ≠ []) (h2 : md ≠ [])
    (h3 : ∀ c ∈ hd, c.isDigit = true) (h4 : ∀ c ∈ md, c.isDigit = true) :
    parseDuration (some ⟨'P' :: 'T' :: (hd ++ 'H' :: (md ++ ['M']))⟩)
        = digitsToNat hd * 60 + digitsToNat md ∧
    parseDuration (some ⟨'P' :: 'T' :: (hd ++ ['H'])⟩) = digitsToNat hd * 60 ∧
    parseDuration (some ⟨'P' :: 'T' :: (md ++ ['M'])⟩) = digitsToNat md ∧
    parseDuration (some ⟨['P', 'T']⟩) = 0 ∧
    parseDuration none = 0 ∧
    (∀ s : String, afterPT s.data = none → parseDuration (some s) = 0) ∧
    parseDuration (some "PT1H30M") = 90 ∧
    parseDuration (some "PT45M") = 45 ∧
    parseDuration (some "garbage") = 0 := by
  refine ⟨?_, ?_, ?_, by rfl, rfl, ?_, by rfl, by rfl, by rfl⟩
  · have e1 := tryNumSuffix_hit (x := 'H') (by decide) h1 h3 (md ++ ['M'])
    have e2 := tryNumSuffix_hit (x := 'M') (by decide) h2 h4 []
    simp [parseDuration, afterPT, e1, e2]
  · have e1 := tryNumSuffix_hit (x := 'H') (by decide) h1 h3 []
    simp [parseDuration, afterPT, e1, tryNumSuffix_nil]
  · have e1 := tryNumSuffix_miss (x := 'H') (y := 'M') (by decide) (by decide) h4 []
    have e2 := tryNumSuffix_hit (x := 'M') (by decide) h2 h4 []
    simp [parseDuration, afterPT, e1, e2]
  · intro s hs
    unfold parseDuration
    by_cases hd : s.data = []
    · simp [hd]
    · simp [hd, hs]

/-- Witness for C7 at the concrete input `"PT2H5M"`. -/
theorem parseDuration_spec_witness : parseDuration (some "PT2H5M") = 125 := by
  have h := (parseDuration_spec ['2'] ['5'] (by decide) (by decide)
    (by decide) (by decide)).1
  have e : ("PT2H5M" : String) = ⟨'P' :: 'T' :: (['2'] ++ 'H' :: (['5'] ++ ['M']))⟩ := rfl
  rw [e, h]; decide

/-- Claim C6 counterexample: the number 0 is falsy in JavaScript, so
`parseServings 0` returns amount 1, not the input number 0 as the claim's
universally-quantified number clause requires. -/
theorem parseServings_num_counterexample :
    parseServings (.num 0) = ⟨1, ""⟩ ∧ (⟨1, ""⟩ : ServingsResult) ≠ ⟨0, ""⟩ := by
  exact ⟨rfl, by decide⟩

/-- Claim C6 (amended): for every nonzero number input `parseServings` returns
that number with empty text; for every string input it returns the value of the
first embedded digit run (default 1 when there is none) with the full trimmed
string as text; absent input gives amount 1 and empty text; and the spec's
concrete examples hold. -/
theorem parseServings_spec (n : Int) (hn : n ≠ 0) (s : String) :
    parseServings (.num n) = ⟨n, ""⟩ ∧
    parseServings (.str s) =
      ⟨(match firstDigitRun s.data with
         | some ds => (digitsToNat ds : Int)
         | none => 1), ⟨jsTrim s.data⟩⟩ ∧
    parseServings .absent = ⟨1, ""⟩ ∧
    parseServings (.str "4 servings") = ⟨4, "4 servings"⟩ ∧
    parseServings (.num 6) = ⟨6, ""⟩ := by
  refine ⟨by simp [parseServings, hn], ?_, rfl, by decide, by decide⟩
  by_cases hs : s.data = []
  · simp [parseServings, hs, firstDigitRun, jsTrim]
  · simp [parseServings, hs]

/-- Witness for C6 (amended) at `n = 6`, `s = "4 servings"`. -/
theorem parseServings_spec_witness :
    parseServings (.num 6) = ⟨6, ""⟩ ∧
    parseServings (.str "4 servings") = ⟨4, "4 servings"⟩ :=
  ⟨(parseServings_spec 6 (by decide) "4 servings").2.2.2.2,
   (parseServings_spec 6 (by decide) "4 servings").2.2.2.1⟩

/-- Claim C10 counterexample: a zero serving count CAN be passed through — the
string input `"0 servings"` is truthy, its first digit run is `0`, and
`parseServings` returns amount 0. -/
theorem parseServings_zero_string_counterexample :
    parseServings (.str "0 servings") = ⟨0, "0 servings"⟩ := by decide

/-- Claim C10 (amended): `parseServings` applied to the number 0 or to the
empty string (both falsy, like absent input) returns serving count 1 with
empty text; a falsy yield value therefore never yields a zero serving count,
though a truthy string whose first digit run is 0 still does. -/
theorem parseServings_falsy_spec :
    parseServings (.num 0) = ⟨1, ""⟩ ∧
    parseServings (.str "") = ⟨1, ""⟩ ∧
    parseServings .absent = ⟨1, ""⟩ := ⟨rfl, rfl, rfl⟩

/-- Embedding of JavaScript `Array.prototype.map((x, index) => ...)`, with the
running index made explicit. -/
def jsMapIdxFrom {α β : Type} (f : Nat → α → β) : Nat → List α → List β
  | _, [] => []
  | i, a :: as => f i a :: jsMapIdxFrom f (i + 1) as

/-- `map` with element index, starting at 0. -/
def jsMapIdx {α β : Type} (f : Nat → α → β) (l : List α) : List β :=
  jsMapIdxFrom f 0 l

theorem jsMapIdxFrom_length {α β : Type} (f : Nat → α → β) :
    ∀ (i : Nat) (l : List α), (jsMapIdxFrom f i l).length = l.length
  | _, [] => rfl
  | i, _ :: as => by simp [jsMapIdxFrom, jsMapIdxFrom_length f (i + 1) as]

theorem jsMapIdxFrom_getElem? {α β : Type} (f : Nat → α → β) :
    ∀ (i : Nat) (l : List α) (k : Nat),
      (jsMapIdxFrom f i l)[k]? = (l[k]?).map (f (i + k))
  | _, [], k => by simp [jsMapIdxFrom]
  | _, _ :: _, 0 => by simp [jsMapIdxFrom]
  | i, _ :: as, k + 1 => by
    have e : i + 1 + k = i + (k + 1) := by omega
    simp [jsMapIdxFrom, jsMapIdxFrom_getElem? f (i + 1) as k, e]

theorem jsMapIdx_length {α β : Type} (f : Nat → α → β) (l : List α) :
    (jsMapIdx f l).length = l.length := jsMapIdxFrom_length f 0 l

theorem jsMapIdx_getElem? {α β : Type} (f : Nat → α → β) (l : List α) (k : Nat) :
    (jsMapIdx f l)[k]? = (l[k]?).map (f k) := by
  simpa using jsMapIdxFrom_getElem? f 0 l k

/-- Input step shape accepted by the tandoor route (`instruction` or `text`,
both optional, for compatibility with two historical shapes). -/
structure InStep where
  instruction : Option String
  text : Option String
deriving DecidableEq, Repr

/-- Tandoor-formatted step produced by `mapSteps` (ingredient entries are kept
generic: the attachment logic never inspects them). -/
structure TStep (α : Type) where
  instruction : String
  ingredients : List α
deriving DecidableEq, Repr

/-- JavaScript `a || b` for an optional string `a`: `a` is used unless it is
absent or the empty string (both falsy). -/
def jsOrStr (a : Option String) (b : String) : String :=
  match a with
  | some s => if s.data = [] then b else s
  | none => b

/-- Embedding of `mapSteps` from `src/app/api/tandoor/route.ts`.  `render`
stands for the builtin `JSON.stringify` applied to the whole step object (the
last fallback for the instruction text).  A missing or empty step array yields
one synthesized "Prepare ingredients" step when there are ingredients;
otherwise each step's instruction is `step.instruction || step.text ||
JSON.stringify(step)` and only index 0 receives the ingredient list. -/
def mapSteps {α : Type} (render : InStep → String)
    (steps : Option (List InStep)) (ingredients : List α) : List (TStep α) :=
  match steps with
  | none =>
    if 0 < ingredients.length then [⟨"Prepare ingredients", ingredients⟩] else []
  | some l =>
    if l.length = 0 then
      if 0 < ingredients.length then [⟨"Prepare ingredients", ingredients⟩] else []
    else
      jsMapIdx (fun i s =>
        ⟨jsOrStr s.instruction (jsOrStr s.text (render s)),
         if i = 0 then ingredients else []⟩) l

/-- Claim C2: for every recipe adapted with a non-empty step sequence, the
output has one step per input step, exactly the first output step carries the
full mapped-ingredient list and every other output step carries an empty list;
and when the source has no steps (absent or empty array) but at least one
ingredient, the output is exactly one synthesized step with instruction
"Prepare ingredients" carrying all mapped ingredients. -/
theorem mapSteps_attachment {α : Type} (render : InStep → String)
    (l : List InStep) (ings : List α) (hl : l ≠ []) (hi : ings ≠ []) :
    ((mapSteps render (some l) ings).length = l.length ∧
     (∀ (i : Nat) (s : InStep), l[i]? = some s →
        (mapSteps render (some l) ings)[i]?
          = some ⟨jsOrStr s.instruction (jsOrStr s.text (render s)),
                  if i = 0 then ings else []⟩)) ∧
    mapSteps render none ings = [⟨"Prepare ingredients", ings⟩] ∧
    mapSteps render (some []) ings = [⟨"Prepare ingredients", ings⟩] := by
  have hlen : l.length ≠ 0 := fun h => hl (List.length_eq_zero.mp h)
  have hipos : 0 < ings.length := List.length_pos.mpr hi
  refine ⟨⟨?_, ?_⟩, ?_, ?_⟩
  · simp [mapSteps, hlen, jsMapIdx_length]
  · intro i s hsi
    simp [mapSteps, hlen, jsMapIdx_getElem?, hsi]
  · simp [mapSteps, hipos]
  · simp [mapSteps, hipos]

/-- Witness for C2, on a two-step input with one ingredient entry. -/
theorem mapSteps_attachment_witness :
    (mapSteps (fun _ => "") (some [⟨some "Chop", none⟩, ⟨none, some "Fry"⟩])
        ["100 g onions"]).length = 2 ∧
    mapSteps (fun _ => "") (none : Option (List InStep)) ["100 g onions"]
      = [⟨"Prepare ingredients", ["100 g onions"]⟩] := by
  have h := mapSteps_attachment (fun _ => "")
    [⟨some "Chop", none⟩, ⟨none, some "Fry"⟩] ["100 g onions"]
    (by decide) (by simp)
  exact ⟨h.1.1, h.2.1⟩

/-- Embedding of JavaScript `String.prototype.split('\n')`: `n` separator
occurrences yield `n + 1` (possibly empty) segments. -/
def splitNl : List Char → List (List Char)
  | [] => [[]]
  | c :: rest =>
    match splitNl rest with
    | [] => [[c]]
    | s :: ss => if c = '\n' then [] :: s :: ss else (c :: s) :: ss

/-- Splitting a newline-free string yields a single segment. -/
theorem splitNl_no_newline : ∀ {cs : List Char}, '\n' ∉ cs → splitNl cs = [cs]
  | [], _ => rfl
  | c :: rest, h => by
    have hc : c ≠ '\n' := fun e => h (by simp [e])
    have hr : '\n' ∉ rest := fun e => h (by simp [e])
    simp [splitNl, splitNl_no_newline hr, hc]

/-- Step shape handled by `refineTandoorSteps` (the generic bound
`T extends does-have instruction/ingredients/show_ingredients_table` in the
source; the embedding carries exactly those three fields). -/
structure RStep (α : Type) where
  instruction : Option String
  ingredients : Option (List α)
  show_ingredients_table : Option Bool
deriving DecidableEq, Repr

/-- The non-empty trimmed lines of an instruction:
`instruction.split('\n').map(l => l.trim()).filter(l => l.length > 0)`. -/
def instructionLines (instr : String) : List (List Char) :=
  ((splitNl instr.data).map jsTrim).filter (fun l => l ≠ [])

/-- Embedding of `refineTandoorSteps` from `src/lib/tandoor-client.ts`: a list
that does not have exactly one step is returned unchanged; so is a single step
whose instruction is absent, empty, or newline-free, or whose split yields at
most one non-empty trimmed line; otherwise the single step is replaced by one
step per non-empty line, index 0 keeping the original ingredients and
show-ingredients-table flag (defaulting to true when absent), all later
indices getting an empty ingredient list and a false flag. -/
def refineTandoorSteps {α : Type} (steps : List (RStep α)) : List (RStep α) :=
  match steps with
  | [s] =>
    match s.instruction with
    | none => [s]
    | some instr =>
      if instr.data = [] ∨ '\n' ∉ instr.data then [s]
      else
        if (instructionLines instr).length ≤ 1 then [s]
        else
          jsMapIdx (fun i line =>
            { instruction := some ⟨line⟩,
              ingredients := if i = 0 then s.ingredients else some [],
              show_ingredients_table :=
                if i = 0 then some (s.show_ingredients_table.getD true)
                else some false }) (instructionLines instr)
  | other => other

/-- Claim C3: the step-splitting repair replaces the list only when it has
exactly one step whose instruction contains a newline and whose split (trim
each line, discard empty lines) has more than one line; then the result has
one step per non-empty line — index 0 keeping the original ingredients and its
show-ingredients-table flag (defaulting true when absent), every later index
an empty ingredient list and a false flag; a list whose length is not 1, a
single step with absent instruction, a single step with no newline, and a
single step splitting into at most one line are all returned unchanged. -/
theorem refineTandoorSteps_spec {α : Type} (s : RStep α) (instr : String)
    (hs : s.instruction = some instr) :
    (∀ steps : List (RStep α), steps.length ≠ 1 → refineTandoorSteps steps = steps) ∧
    (∀ t : RStep α, t.instruction = none → refineTandoorSteps [t] = [t]) ∧
    ('\n' ∉ instr.data → refineTandoorSteps [s] = [s]) ∧
    ((instructionLines instr).length ≤ 1 → refineTandoorSteps [s] = [s]) ∧
    ('\n' ∈ instr.data → 1 < (instructionLines instr).length →
      (refineTandoorSteps [s]).length = (instructionLines instr).length ∧
      ∀ (i : Nat) (line : List Char), (instructionLines instr)[i]? = some line →
        (refineTandoorSteps [s])[i]?
          = some ⟨some ⟨line⟩,
                  if i = 0 then s.ingredients else some [],
                  if i = 0 then some (s.show_ingredients_table.getD true)
                  else some false⟩) := by
  refine ⟨?_, ?_, ?_, ?_, ?_⟩
  · intro steps hlen
    match steps, hlen with
    | [], _ => rfl
    | _ :: _ :: _, _ => rfl
    | [t], h => exact absurd rfl h
  · intro t ht
    simp [refineTandoorSteps, ht]
  · intro hnl
    simp [refineTandoorSteps, hs, hnl]
  · intro hle
    by_cases hnl : '\n' ∈ instr.data
    · have hne : instr.data ≠ [] := by
        intro e; rw [e] at hnl; exact absurd hnl (List.not_mem_nil _)
      simp [refineTandoorSteps, hs, hne, hnl, hle]
    · simp [refineTandoorSteps, hs, hnl]
  · intro hnl hgt
    have hne : instr.data ≠ [] := by
      intro e; rw [e] at hnl; exact absurd hnl (List.not_mem_nil _)
    have hnle : ¬ (instructionLines instr).length ≤ 1 := by omega
    constructor
    · simp [refineTandoorSteps, hs, hne, hnl, hnle, jsMapIdx_length]
    · intro i line hline
      simp [refineTandoorSteps, hs, hne, hnl, hnle, jsMapIdx_getElem?, hline]

/-- Witness for C3 on the spec's own example: a single step
`"Chop onions\nFry onions\nServe"` splits into three steps, with the original
ingredients only on the first. -/
theorem refineTandoorSteps_spec_witness :
    refineTandoorSteps
        [({ instruction := some "Chop onions\nFry onions\nServe",
            ingredients := some ["onions"],
            show_ingredients_table := none } : RStep String)]
      = [{ instruction := some "Chop onions", ingredients := some ["onions"],
           show_ingredients_table := some true },
         { instruction := some "Fry onions", ingredients := some [],
           show_ingredients_table := some false },
         { instruction := some "Serve", ingredients := some [],
           show_ingredients_table := some false }] := by
  have h := (refineTandoorSteps_spec
    ({ instruction := some "Chop onions\nFry onions\nServe",
       ingredients := some ["onions"],
       show_ingredients_table := none } : RStep String)
    "Chop onions\nFry onions\nServe" rfl).2.2.2.2 (by decide) (by decide)
  have h0 := h.2 0 "Chop onions".data (by decide)
  have h1 := h.2 1 "Fry onions".data (by decide)
  have h2 := h.2 2 "Serve".data (by decide)
  have hlen := h.1
  apply List.ext_getElem?
  intro i
  match i with
  | 0 => simpa using h0
  | 1 => simpa using h1
  | 2 => simpa using h2
  | n + 3 =>
    have : (refineTandoorSteps
        [({ instruction := some "Chop onions\nFry onions\nServe",
            ingredients := some ["onions"],
            show_ingredients_table := none } : RStep String)]).length = 3 := by
      rw [hlen]; decide
    rw [List.getElem?_eq_none (by omega), List.getElem?_eq_none (by simp)]

/-- The two Tandoor authentication schemes (`AUTH_SCHEMES` in
`src/lib/constants.ts`). -/
inductive AuthScheme where
  | token
  | bearer
deriving DecidableEq, Repr

/-- Literal header value of a scheme. -/
def schemeName : AuthScheme → String
  | .token => "Token"
  | .bearer => "Bearer"

/-- `TandoorClient.getAuthHeader`: the Authorization header is the current
session scheme followed by a space and the stored token. -/
def getAuthHeader (scheme : AuthScheme) (token : String) : String :=
  schemeName scheme ++ " " ++ token

/-- Observable outcome of one `fetchWithAuthFallback` call.  The serving side
is modelled as a deterministic status oracle `AuthScheme → Nat` (the same
request is retried identically, so only the scheme varies); `attempts` records
the schemes of the issued requests in order. -/
structure FallbackResult where
  status : Nat
  newScheme : AuthScheme
  attempts : List AuthScheme
deriving DecidableEq, Repr

/-- Embedding of `TandoorClient.fetchWithAuthFallback`: the first request is
always issued with the `Token` scheme (the stored `authScheme` field is not
consulted, which is why the parameter is unused); on a 401 or 403 the request
is retried once with `Bearer` and `Bearer` is recorded as the session scheme
regardless of the retry's outcome; otherwise `Token` is recorded. -/
def fetchWithAuthFallback (server : AuthScheme → Nat)
    (_assumedScheme : AuthScheme) : FallbackResult :=
  if server .token = 401 ∨ server .token = 403 then
    { status := server .bearer, newScheme := .bearer,
      attempts := [.token, .bearer] }
  else
    { status := server .token, newScheme := .token, attempts := [.token] }

/-- Outcome of `TandoorClient.createRecipe`: `ok` is whether recipe data was
returned (`response.ok || response.status === 201`). -/
structure CreateResult where
  ok : Bool
  status : Nat
  newScheme : AuthScheme
  attempts : List AuthScheme
deriving DecidableEq, Repr

/-- Embedding of `TandoorClient.createRecipe`: one `fetchWithAuthFallback`
call; the parsed response is returned when the final status is a success
(2xx, `Response.ok`) or 201. -/
def createRecipe (server : AuthScheme → Nat) (assumedScheme : AuthScheme) :
    CreateResult :=
  let r := fetchWithAuthFallback server assumedScheme
  { ok := decide ((200 ≤ r.status ∧ r.status ≤ 299) ∨ r.status = 201),
    status := r.status, newScheme := r.newScheme, attempts := r.attempts }

/-- A deployment that rejects the `Token` scheme with 401 and accepts the
`Bearer` scheme with 200. -/
def bearerOnlyServer : AuthScheme → Nat
  | .token => 401
  | .bearer => 200

/-- Claim C1 counterexample: against a deployment that rejects `Token` and
accepts `Bearer`, the first `createRecipe` succeeds on the `Bearer` retry and
`Bearer` becomes the session's assumed scheme — yet a second `createRecipe` on
the same client issues its first attempt with `Token`, not with the remembered
working scheme, refuting the claim that every request is first issued with the
session's currently assumed scheme. -/
theorem authFallback_counterexample :
    (createRecipe bearerOnlyServer .token).ok = true ∧
    (createRecipe bearerOnlyServer .token).newScheme = .bearer ∧
    (createRecipe bearerOnlyServer
        (createRecipe bearerOnlyServer .token).newScheme).attempts.head?
      = some .token ∧
    (AuthScheme.token ≠ AuthScheme.bearer) := by decide

/-- Claim C1 (amended): every `fetchWithAuthFallback`-based operation issues
its first attempt with `Token` regardless of the session's assumed scheme;
when the deployment rejects `Token` as unauthorized/forbidden and accepts
`Bearer`, `createRecipe` succeeds on the second internal attempt and `Bearer`
is recorded as the session scheme — which the client then uses for
`uploadImageFromUrl`'s Authorization header — but a subsequent
`createRecipe`-style operation again issues its first attempt with `Token`,
not with the remembered scheme. -/
theorem authFallback_spec (server : AuthScheme → Nat) (assumed : AuthScheme)
    (h1 : server .token = 401 ∨ server .token = 403)
    (h2 : 200 ≤ server .bearer) (h3 : server .bearer ≤ 299) :
    (∀ st : AuthScheme,
        (fetchWithAuthFallback server st).attempts.head? = some .token) ∧
    (createRecipe server assumed).attempts = [.token, .bearer] ∧
    (createRecipe server assumed).ok = true ∧
    (createRecipe server assumed).newScheme = .bearer ∧
    (∀ tok : String,
        getAuthHeader (createRecipe server assumed).newScheme tok
          = "Bearer " ++ tok) ∧
    (createRecipe server
        (createRecipe server assumed).newScheme).attempts.head?
      = some .token := by
  have hb : (server .token = 401 ∨ server .token = 403) = True := by simp [h1]
  refine ⟨?_, ?_, ?_, ?_, ?_, ?_⟩
  · intro st
    unfold fetchWithAuthFallback
    split <;> rfl
  · simp [createRecipe, fetchWithAuthFallback, hb]
  · simp only [createRecipe, fetchWithAuthFallback, hb, if_true]
    simp
    omega
  · simp [createRecipe, fetchWithAuthFallback, hb]
  · intro tok
    simp [createRecipe, fetchWithAuthFallback, hb, getAuthHeader, schemeName]
  · simp only [createRecipe, fetchWithAuthFallback, hb, if_true]
    rfl

/-- Witness for C1 (amended) against `bearerOnlyServer`. -/
theorem authFallback_spec_witness :
    (createRecipe bearerOnlyServer .token).ok = true ∧
    (createRecipe bearerOnlyServer .token).attempts = [.token, .bearer] :=
  ⟨(authFallback_spec bearerOnlyServer .token (Or.inl rfl) (by decide)
      (by decide)).2.2.1,
   (authFallback_spec bearerOnlyServer .token (Or.inl rfl) (by decide)
      (by decide)).2.1⟩

/-- Case-insensitive character comparison (the regex `/i` flag). -/
def charCI (a b : Char) : Bool := a.toLower == b.toLower

/-- Case-insensitive literal word match at the start of the input, returning
the remainder on success. -/
def matchWordCI : List Char → List Char → Option (List Char)
  | [], cs => some cs
  | _ :: _, [] => none
  | p :: ps, c :: cs => if charCI p c then matchWordCI ps cs else none

def bearerWord : List Char := ['B', 'e', 'a', 'r', 'e', 'r']

def tokenWord : List Char := ['T', 'o', 'k', 'e', 'n']

/-- Remainder after the alternation `(Bearer|Token)` at the start of the
input.  The regex alternation tries `Bearer` first; since the two words start
with different letters, at most one can match, so no backtracking between the
alternatives is possible and this order is faithful. -/
def schemeWordRest (cs : List Char) : Option (List Char) :=
  match matchWordCI bearerWord cs with
  | some r => some r
  | none => matchWordCI tokenWord cs

/-- The match of the anchored regex `^(Bearer|Token)\s+` (case-insensitive):
on success, the input after the scheme word and the maximal (non-empty)
whitespace run that must follow it. -/
def schemeSplit (cs : List Char) : Option (List Char) :=
  match schemeWordRest cs with
  | some r => if r.takeWhile jsWS ≠ [] then some (r.dropWhile jsWS) else none
  | none => none

/-- Embedding of `cleanAuthToken` from `src/lib/utils.ts`:
`token.replace(/^(Bearer|Token)\s+/i, '').trim()` — strip one leading scheme
word with its following whitespace if the string begins with one, then trim. -/
def cleanAuthToken (t : String) : String :=
  ⟨jsTrim ((schemeSplit t.data).getD t.data)⟩

theorem dropWhile_head_not {p : Char → Bool} :
    ∀ {l : List Char} {c : Char}, (l.dropWhile p).head? = some c → p c = false
  | [], _, h => by simp at h
  | a :: as, c, h => by
    by_cases ha : p a
    · rw [List.dropWhile_cons_of_pos ha] at h
      exact dropWhile_head_not h
    · rw [List.dropWhile_cons_of_neg ha] at h
      simp only [List.head?_cons, Option.some.injEq] at h
      subst h; exact Bool.of_not_eq_true ha

theorem ltrim_of_head {x : List Char}
    (h : ∀ c, x.head? = some c → jsWS c = false) : x.dropWhile jsWS = x := by
  cases x with
  | nil => rfl
  | cons c cs => exact List.dropWhile_cons_of_neg (by simp [h c rfl])

theorem dropWhile_ws_idem (l : List Char) :
    (l.dropWhile jsWS).dropWhile jsWS = l.dropWhile jsWS :=
  ltrim_of_head (fun _ hc => dropWhile_head_not hc)

/-- Right-trim decomposition: a list is its right-trimmed part followed by its
trailing whitespace. -/
theorem rtrim_decomp (x : List Char) :
    x = (x.reverse.dropWhile jsWS).reverse ++ (x.reverse.takeWhile jsWS).reverse := by
  have h := List.takeWhile_append_dropWhile (p := jsWS) (l := x.reverse)
  calc x = x.reverse.reverse := (List.reverse_reverse x).symm
  _ = (x.reverse.takeWhile jsWS ++ x.reverse.dropWhile jsWS).reverse := by rw [h]
  _ = _ := by rw [List.reverse_append]

/-- The head of a trimmed list is not whitespace. -/
theorem jsTrim_head {x : List Char} :
    ∀ c, (jsTrim x).head? = some c → jsWS c = false := by
  intro c hc
  unfold jsTrim at hc
  cases hr : (( x.dropWhile jsWS).reverse.dropWhile jsWS).reverse with
  | nil => rw [hr] at hc; simp at hc
  | cons a as =>
    rw [hr] at hc
    simp only [List.head?_cons, Option.some.injEq] at hc
    subst hc
    have hd := rtrim_decomp (x.dropWhile jsWS)
    rw [hr] at hd
    have hhead : (x.dropWhile jsWS).head? = some a := by
      rw [hd]; simp
    exact dropWhile_head_not hhead

theorem jsTrim_idem (x : List Char) : jsTrim (jsTrim x) = jsTrim x := by
  have h1 : (jsTrim x).dropWhile jsWS = jsTrim x :=
    ltrim_of_head (fun c hc => jsTrim_head c hc)
  show ((((jsTrim x).dropWhile jsWS).reverse).dropWhile jsWS).reverse = jsTrim x
  rw [h1]
  show ((((x.dropWhile jsWS).reverse.dropWhile jsWS).reverse).reverse.dropWhile jsWS).reverse
      = jsTrim x
  rw [List.reverse_reverse, dropWhile_ws_idem]
  rfl

theorem matchWordCI_extend : ∀ (w x u r : List Char),
    matchWordCI w x = some r → matchWordCI w (x ++ u) = some (r ++ u)
  | [], x, u, r, h => by
    simp only [matchWordCI, Option.some.injEq] at h
    subst h; rfl
  | _ :: _, [], _, _, h => by simp [matchWordCI] at h
  | p :: ps, c :: cs, u, r, h => by
    by_cases hc : charCI p c
    · simp only [matchWordCI, hc, if_true] at h
      simpa [matchWordCI, hc] using matchWordCI_extend ps cs u r h
    · simp [matchWordCI, hc] at h

theorem matchWordCI_head : ∀ (p : Char) (ps x r : List Char),
    matchWordCI (p :: ps) x = some r → ∃ c cs, x = c :: cs ∧ charCI p c = true
  | _, _, [], _, h => by simp [matchWordCI] at h
  | p, ps, c :: cs, r, h => by
    by_cases hc : charCI p c
    · exact ⟨c, cs, rfl, hc⟩
    · simp [matchWordCI, hc] at h

theorem schemeWordRest_extend {x r : List Char} (u : List Char)
    (h : schemeWordRest x = some r) : schemeWordRest (x ++ u) = some (r ++ u) := by
  unfold schemeWordRest at h ⊢
  cases hb : matchWordCI bearerWord x with
  | some q =>
    rw [hb] at h
    cases h
    rw [matchWordCI_extend _ _ u _ hb]
  | none =>
    rw [hb] at h
    obtain ⟨c, cs, hx, hc⟩ := matchWordCI_head 'T' _ x r h
    have hcl : c.toLower = 't' := by
      have := beq_iff_eq.mp hc
      simpa [Char.toLower] using this.symm
    have hbc : charCI 'B' c = false := by
      simp [charCI, hcl]
    subst hx
    have hbnone : matchWordCI bearerWord (c :: (cs ++ u)) = none := by
      simp [bearerWord, matchWordCI, hbc]
    rw [List.cons_append, hbnone]
    have := matchWordCI_extend tokenWord (c :: cs) u r h
    simpa using this

theorem schemeSplit_extend {x y : List Char} (u : List Char)
    (h : schemeSplit x = some y) : ∃ z, schemeSplit (x ++ u) = some z := by
  unfold schemeSplit at h ⊢
  cases hw : schemeWordRest x with
  | none => rw [hw] at h; cases h
  | some r =>
    rw [hw] at h
    rw [schemeWordRest_extend u hw]
    cases r with
    | nil => simp at h
    | cons a as =>
      by_cases ha : jsWS a
      · refine ⟨((a :: as ++ u).dropWhile jsWS), ?_⟩
        simp [List.takeWhile_cons, ha]
      · simp [List.takeWhile_cons, ha] at h

/-- A list whose scheme match fails keeps failing after right-trimming. -/
theorem schemeSplit_rtrim_none {x : List Char} (h : schemeSplit x = none) :
    schemeSplit ((x.reverse.dropWhile jsWS).reverse) = none := by
  by_contra hc
  obtain ⟨y, hy⟩ := Option.ne_none_iff_exists'.mp hc
  obtain ⟨z, hz⟩ := schemeSplit_extend ((x.reverse.takeWhile jsWS).reverse) hy
  rw [← rtrim_decomp] at hz
  rw [h] at hz
  cases hz

/-- The remainder delivered by a successful scheme match starts with a
non-whitespace character (the matched `\s+` run is maximal). -/
theorem schemeSplit_head {x r : List Char} (h : schemeSplit x = some r) :
    ∀ c, r.head? = some c → jsWS c = false := by
  unfold schemeSplit at h
  cases hw : schemeWordRest x with
  | none => rw [hw] at h; cases h
  | some q =>
    rw [hw] at h
    by_cases hq : q.takeWhile jsWS = []
    · simp [hq] at h
    · simp only [hq, ne_eq, not_false_iff, if_true, Option.some.injEq] at h
      subst h
      exact fun c hc => dropWhile_head_not hc

/-- Reduction of `schemeSplit` once the scheme word's match is known. -/
theorem schemeSplit_word {cs r : List Char} (h : schemeWordRest cs = some r) :
    schemeSplit cs
      = if r.takeWhile jsWS ≠ [] then some (r.dropWhile jsWS) else none := by
  unfold schemeSplit
  rw [h]

/-- Claim C9 counterexample: the token `" Bearer x"` begins with whitespace,
so it carries no leading scheme word and hence at most one such prefix; yet
the anchored regex does not fire on it, `cleanAuthToken` returns
`"Bearer x"` — a string that still carries a scheme prefix — cleaning is not
idempotent on it, and the Authorization header the client builds from it is
`"Token Bearer x"`, whose remainder after one scheme word still carries a
scheme prefix (a doubled prefix). -/
theorem cleanAuthToken_counterexample :
    cleanAuthToken " Bearer x" = "Bearer x" ∧
    (schemeSplit (("Bearer x" : String).data)).isSome = true ∧
    cleanAuthToken (cleanAuthToken " Bearer x") = "x" ∧
    ("x" : String) ≠ "Bearer x" ∧
    getAuthHeader .token (cleanAuthToken " Bearer x") = "Token Bearer x" ∧
    (schemeSplit ((schemeSplit (("Token Bearer x" : String).data)).getD [])).isSome
      = true := by decide

/-- Claim C9 (amended): for every token that does not begin with whitespace
and carries at most one leading scheme prefix (after stripping one prefix the
remainder carries none), the cleaned token is prefix-free, `cleanAuthToken` is
idempotent on it, and every Authorization header the client builds from it
consists of exactly one scheme name followed by the bare (prefix-free) token.
A token with whitespace before its scheme word defeats the anchored regex and
escapes cleaning. -/
theorem cleanAuthToken_spec (t : List Char)
    (hhead : ∀ c, t.head? = some c → jsWS c = false)
    (hone : ∀ r, schemeSplit t = some r → schemeSplit r = none) :
    schemeSplit ((cleanAuthToken ⟨t⟩).data) = none ∧
    cleanAuthToken (cleanAuthToken ⟨t⟩) = cleanAuthToken ⟨t⟩ ∧
    (∀ sch : AuthScheme,
      schemeSplit ((getAuthHeader sch (cleanAuthToken ⟨t⟩)).data)
        = some ((cleanAuthToken ⟨t⟩).data)) := by
  have hdata : (cleanAuthToken ⟨t⟩).data = jsTrim ((schemeSplit t).getD t) := rfl
  have hfree : schemeSplit ((cleanAuthToken ⟨t⟩).data) = none := by
    rw [hdata]
    cases hsp : schemeSplit t with
    | none =>
      have hltrim : t.dropWhile jsWS = t := ltrim_of_head hhead
      show schemeSplit (jsTrim t) = none
      unfold jsTrim
      rw [hltrim]
      exact schemeSplit_rtrim_none hsp
    | some r =>
      have hrhead := schemeSplit_head hsp
      have hrnone := hone r hsp
      show schemeSplit (jsTrim r) = none
      unfold jsTrim
      rw [ltrim_of_head hrhead]
      exact schemeSplit_rtrim_none hrnone
  have htrimmed : ∃ w, (cleanAuthToken ⟨t⟩).data = jsTrim w :=
    ⟨(schemeSplit t).getD t, hdata⟩
  refine ⟨hfree, ?_, ?_⟩
  · obtain ⟨w, hw⟩ := htrimmed
    apply String.ext
    show jsTrim ((schemeSplit ((cleanAuthToken ⟨t⟩).data)).getD
        ((cleanAuthToken ⟨t⟩).data)) = (cleanAuthToken ⟨t⟩).data
    rw [hfree]
    show jsTrim ((cleanAuthToken ⟨t⟩).data) = (cleanAuthToken ⟨t⟩).data
    rw [hw, jsTrim_idem]
  · intro sch
    have hchead : ∀ c, ((cleanAuthToken ⟨t⟩).data).head? = some c → jsWS c = false := by
      obtain ⟨w, hw⟩ := htrimmed
      rw [hw]; exact fun c hc => jsTrim_head c hc
    have hds : ((getAuthHeader sch (cleanAuthToken ⟨t⟩)).data)
        = (schemeName sch).data ++ ' ' :: (cleanAuthToken ⟨t⟩).data := by
      cases sch <;> simp [getAuthHeader, schemeName, String.data_append]
    rw [hds]
    have htake : ((cleanAuthToken ⟨t⟩).data).takeWhile jsWS = [] := by
      cases hck : (cleanAuthToken ⟨t⟩).data with
      | nil => rfl
      | cons a as =>
        have ha := hchead a (by rw [hck]; rfl)
        rw [List.takeWhile_cons_of_neg (by simp [ha])]
    have hdrop : ((cleanAuthToken ⟨t⟩).data).dropWhile jsWS
        = (cleanAuthToken ⟨t⟩).data := ltrim_of_head hchead
    cases sch with
    | token =>
      show schemeSplit ('T' :: 'o' :: 'k' :: 'e' :: 'n' :: ' ' :: (cleanAuthToken ⟨t⟩).data)
          = some ((cleanAuthToken ⟨t⟩).data)
      have hword : schemeWordRest
          ('T' :: 'o' :: 'k' :: 'e' :: 'n' :: ' ' :: (cleanAuthToken ⟨t⟩).data)
          = some (' ' :: (cleanAuthToken ⟨t⟩).data) := by
        simp [schemeWordRest, matchWordCI, bearerWord, tokenWord, charCI]
      rw [schemeSplit_word hword]
      rw [List.takeWhile_cons_of_pos (by decide), List.dropWhile_cons_of_pos (by decide),
        hdrop]
      simp
    | bearer =>
      show schemeSplit ('B' :: 'e' :: 'a' :: 'r' :: 'e' :: 'r' :: ' ' :: (cleanAuthToken ⟨t⟩).data)
          = some ((cleanAuthToken ⟨t⟩).data)
      have hword : schemeWordRest
          ('B' :: 'e' :: 'a' :: 'r' :: 'e' :: 'r' :: ' ' :: (cleanAuthToken ⟨t⟩).data)
          = some (' ' :: (cleanAuthToken ⟨t⟩).data) := by
        simp [schemeWordRest, matchWordCI, bearerWord, charCI]
      rw [schemeSplit_word hword]
      rw [List.takeWhile_cons_of_pos (by decide), List.dropWhile_cons_of_pos (by decide),
        hdrop]
      simp

/-- Witness for C9 (amended) on the token `"Bearer  secret"`. -/
theorem cleanAuthToken_spec_witness :
    schemeSplit ((cleanAuthToken "Bearer  secret").data) = none ∧
    cleanAuthToken (cleanAuthToken "Bearer  secret")
      = cleanAuthToken "Bearer  secret" := by
  have h := cleanAuthToken_spec (("Bearer  secret" : String).data)
    (by decide) (by decide)
  exact ⟨h.1, h.2.1⟩

theorem dropWhile_length_le (p : Char → Bool) :
    ∀ l : List Char, (l.dropWhile p).length ≤ l.length
  | [] => Nat.le_refl 0
  | c :: rest => by
    by_cases hc : p c
    · rw [List.dropWhile_cons_of_pos hc]
      exact Nat.le_succ_of_le (dropWhile_length_le p rest)
    · rw [List.dropWhile_cons_of_neg hc]

/-- Embedding of `text.replace(/\s+/g, ' ')`: every maximal whitespace run
becomes a single space.  The boolean records whether the previous character
was part of a whitespace run. -/
def collapseWsAux : Bool → List Char → List Char
  | _, [] => []
  | prevWS, c :: rest =>
    if jsWS c then
      if prevWS then collapseWsAux true rest else ' ' :: collapseWsAux true rest
    else c :: collapseWsAux false rest

def collapseWs (l : List Char) : List Char := collapseWsAux false l

/-- Observable outcome of the one `fetch` of the extraction route's URL
branch: either the call throws (network failure or timeout) or it yields a
response with a status and a body — of which the code reads only the body. -/
inductive FetchOutcome where
  | netError
  | response (status : Nat) (body : String)
deriving DecidableEq, Repr

/-- The extraction route's fetch-failure error (surfaced to the caller as
"Failed to fetch URL" with HTTP 400). -/
inductive FetchErr where
  | fetchError
deriving DecidableEq, Repr

/-- Embedding of `fetchUrlContent` from `src/app/api/extract/route.ts`.
`extractBodyText` stands for the cheerio document step (load the HTML, remove
`script`/`style`/`nav`/`footer`, take the body text); the remaining text is
whitespace-collapsed and trimmed.  The function never inspects
`response.status` or `response.ok`: only a throwing `fetch` produces an
error. -/
def fetchUrlContent (extractBodyText : String → String) (o : FetchOutcome) :
    Except FetchErr String :=
  match o with
  | .netError => .error .fetchError
  | .response _ body => .ok ⟨jsTrim (collapseWs (extractBodyText body).data)⟩

/-- The URL branch of the extraction route's `POST`: a `fetchUrlContent`
failure terminates the request with `("Failed to fetch URL", 400)`; otherwise
the cleaned text flows on (no retry — exactly one fetch outcome is ever
consumed). -/
def extractFetchStage (extractBodyText : String → String) (o : FetchOutcome) :
    Except (String × Nat) String :=
  match fetchUrlContent extractBodyText o with
  | .error _ => .error ("Failed to fetch URL", 400)
  | .ok t => .ok t

/-- Claim C5 counterexample: a GET that completes with the non-success status
404 does NOT produce a FetchError — the error page's body is cleaned and
returned as content, refuting the claim that a non-success HTTP status of the
GET fails the Content Fetcher. -/
theorem fetchUrlContent_counterexample :
    fetchUrlContent id (.response 404 "Not Found") = .ok "Not Found" ∧
    ¬ (200 ≤ 404 ∧ 404 ≤ 299) := by
  exact ⟨rfl, by omega⟩

/-- Claim C5 (amended): when the extraction input is a URL, the Content
Fetcher fails exactly when the GET itself throws (network failure or
timeout); a non-success HTTP status is not detected — the response body is
cleaned and used regardless of status — and on failure the extraction
terminates with the FetchError response ("Failed to fetch URL", status 400)
without retrying. -/
theorem fetchUrlContent_spec (extractBodyText : String → String)
    (o : FetchOutcome) :
    ((∃ e, fetchUrlContent extractBodyText o = .error e) ↔ o = .netError) ∧
    (o = .netError →
      extractFetchStage extractBodyText o = .error ("Failed to fetch URL", 400)) ∧
    (∀ st body, o = .response st body →
      fetchUrlContent extractBodyText o
        = .ok ⟨jsTrim (collapseWs (extractBodyText body).data)⟩) := by
  cases o with
  | netError =>
    refine ⟨⟨fun _ => rfl, fun _ => ⟨.fetchError, rfl⟩⟩, fun _ => rfl, ?_⟩
    intro st body h
    cases h
  | response st body =>
    refine ⟨⟨?_, ?_⟩, ?_, ?_⟩
    · rintro ⟨e, he⟩
      cases he
    · intro h; cases h
    · intro h; cases h
    · intro st' body' h
      cases h
      rfl

/-- Witness for C5 (amended): a throwing fetch terminates the extraction with
the 400 FetchError response. -/
theorem fetchUrlContent_spec_witness :
    extractFetchStage id .netError = .error ("Failed to fetch URL", 400) :=
  (fetchUrlContent_spec id .netError).2.1 rfl

/-- Case-sensitive "starts with" on character lists (JavaScript
`String.prototype.startsWith`). -/
def leadsWithList : List Char → List Char → Bool
  | [], _ => true
  | _ :: _, [] => false
  | p :: ps, c :: cs => p = c && leadsWithList ps cs

/-- The shapes the extraction route's `image` field can take, per the code's
branches: null/undefined, a string, an array (whose first element is
inspected), or an object inspected through its `url` field.  An object is
modelled by its (string-valued or absent/empty) `url` field, the only part of
it the code reads. -/
inductive JVal where
  | vnull
  | vstr (s : String)
  | varr (elems : List JVal)
  | vobj (url : Option String)

/-- The reachability gate at the end of `normalizeImage`: a candidate is
accepted only if it is truthy, starts with `http`, and the `HEAD` existence
check succeeds (`reachable` is the oracle for "the HEAD request resolved
within the 2s timeout with an ok status"; a network error, timeout, or non-ok
status all make it false, which the code treats identically). -/
def candidateCheck (reachable : String → Bool) : Option String → Option String
  | some u =>
    if u.data ≠ [] ∧ leadsWithList ['h', 't', 't', 'p'] u.data then
      if reachable u then some u else none
    else none
  | none => none

/-- Embedding of `normalizeImage` from `src/app/api/extract/route.ts`: a falsy
input gives null; a string is its own candidate; an array contributes its
first element (a string directly, an object through a truthy `url` field); an
object contributes its truthy `url` field; the candidate must then pass
`candidateCheck`. -/
def normalizeImage (reachable : String → Bool) (image : JVal) : Option String :=
  match image with
  | .vnull => none
  | .vstr s =>
    if s.data = [] then none
    else candidateCheck reachable (some s)
  | .varr l =>
    candidateCheck reachable
      (match l.head? with
       | some (.vstr s) => some s
       | some (.vobj u) =>
         match u with
         | some us => if us.data = [] then none else some us
         | none => none
       | _ => none)
  | .vobj u =>
    candidateCheck reachable
      (match u with
       | some us => if us.data = [] then none else some us
       | none => none)

/-- Characters `encodeURIComponent` leaves unescaped. -/
def isUnreservedURI (c : Char) : Bool :=
  c.isAlphanum || c = '-' || c = '_' || c = '.' || c = '!' || c = '~' ||
    c = '*' || c = Char.ofNat 39 || c = '(' || c = ')'

def hexDigitChar (n : Nat) : Char :=
  if n < 10 then Char.ofNat (48 + n) else Char.ofNat (55 + n)

def percentEncodeByte (b : UInt8) : List Char :=
  ['%', hexDigitChar (b.toNat / 16), hexDigitChar (b.toNat % 16)]

/-- Embedding of the builtin `encodeURIComponent`: unreserved characters pass
through, every other character is replaced by the percent-encoding of its
UTF-8 bytes. -/
def encodeURIComponent (s : String) : String :=
  ⟨s.data.foldr
    (fun c acc =>
      (if isUnreservedURI c then [c]
       else ((String.utf8EncodeChar c).map percentEncodeByte).flatten) ++ acc)
    []⟩

def POLLINATIONS_BASE_URL : String := "https://pollinations.ai/p"

/-- Embedding of `generateFallbackImageUrl` from
`src/app/api/extract/route.ts`: a Pollinations.ai URL built from a prompt
containing the recipe name (or "delicious food" when the name is falsy) and
the comma-joined first three ingredient entries (empty when the ingredient
field is not an array). -/
def generateFallbackImageUrl (name : String)
    (recipeIngredient : Option (List String)) : String :=
  let ingredients :=
    match recipeIngredient with
    | some l => String.intercalate ", " (l.take 3)
    | none => ""
  let prompt := encodeURIComponent
    ("Professional food photography of "
      ++ (if name.data = [] then "delicious food" else name)
      ++ ", " ++ ingredients ++ ", high quality, lush lighting")
  POLLINATIONS_BASE_URL ++ "/" ++ prompt ++ "?model=flux&width=1024&height=1024"

/-- The image-resolution step of the extraction route's `POST`: the record's
image becomes the normalized candidate, replaced by the generated fallback
URL whenever the normalized value is falsy (null or empty). -/
def resolveImage (reachable : String → Bool) (image : JVal) (name : String)
    (recipeIngredient : Option (List String)) : String :=
  match normalizeImage reachable image with
  | some u =>
    if u.data = [] then generateFallbackImageUrl name recipeIngredient else u
  | none => generateFallbackImageUrl name recipeIngredient

theorem candidateCheck_some {reachable : String → Bool} {o : Option String}
    {u : String} (h : candidateCheck reachable o = some u) :
    u.data ≠ [] ∧ leadsWithList ['h', 't', 't', 'p'] u.data = true ∧
      reachable u = true := by
  match o with
  | none => cases h
  | some v =>
    unfold candidateCheck at h
    dsimp only at h
    by_cases hc : v.data ≠ [] ∧ leadsWithList ['h', 't', 't', 'p'] v.data
    · rw [if_pos hc] at h
      by_cases hr : reachable v
      · rw [if_pos hr] at h
        cases h
        exact ⟨hc.1, hc.2, hr⟩
      · rw [if_neg hr] at h; cases h
    · rw [if_neg hc] at h; cases h

theorem normalizeImage_some {reachable : String → Bool} {image : JVal}
    {u : String} (h : normalizeImage reachable image = some u) :
    u.data ≠ [] ∧ leadsWithList ['h', 't', 't', 'p'] u.data = true ∧
      reachable u = true := by
  match image with
  | .vnull => cases h
  | .vstr s =>
    unfold normalizeImage at h
    dsimp only at h
    by_cases hs : s.data = []
    · rw [if_pos hs] at h; cases h
    · rw [if_neg hs] at h
      exact candidateCheck_some h
  | .varr l => exact candidateCheck_some h
  | .vobj o => exact candidateCheck_some h

theorem generateFallbackImageUrl_ne_nil (name : String)
    (recipeIngredient : Option (List String)) :
    (generateFallbackImageUrl name recipeIngredient).data ≠ [] := by
  unfold generateFallbackImageUrl
  simp only [String.data_append]
  apply List.append_ne_nil_of_left_ne_nil
  apply List.append_ne_nil_of_left_ne_nil
  apply List.append_ne_nil_of_left_ne_nil
  decide

/-- Claim C4: for every input to the image resolver — absent, string,
sequence, nested object, or a candidate URL that is unreachable or fails its
existence check — the resolved image is always a single non-empty URL string:
either a candidate that starts with `http` and passed the reachability check,
or the synthesized Pollinations fallback URL built from the recipe name and
up to three leading ingredients. -/
theorem resolveImage_total (reachable : String → Bool) (image : JVal)
    (name : String) (recipeIngredient : Option (List String)) :
    (resolveImage reachable image name recipeIngredient).data ≠ [] ∧
    ((leadsWithList ['h', 't', 't', 'p']
          (resolveImage reachable image name recipeIngredient).data = true ∧
        reachable (resolveImage reachable image name recipeIngredient) = true) ∨
      resolveImage reachable image name recipeIngredient
        = generateFallbackImageUrl name recipeIngredient) := by
  unfold resolveImage
  cases hn : normalizeImage reachable image with
  | none =>
    exact ⟨generateFallbackImageUrl_ne_nil name recipeIngredient, Or.inr rfl⟩
  | some u =>
    obtain ⟨hne, hhttp, hr⟩ := normalizeImage_some hn
    dsimp only
    rw [if_neg (by simpa using hne)]
    exact ⟨hne, Or.inl ⟨hhttp, hr⟩⟩

/-- The backtick character (written by code point to keep it out of the
source text). -/
def backtick : Char := Char.ofNat 96

/-- Auxiliary scanner for global literal replacement by the empty string:
in mode `0` it deletes the (non-empty) pattern `p :: ps` wherever it leads the
remaining input and continues after the match, as the JavaScript global
`replace` does; mode `k + 1` skips the `k + 1` remaining characters of a match
already begun. -/
def removeAllAux (p : Char) (ps : List Char) : Nat → List Char → List Char
  | _, [] => []
  | 0, c :: rest =>
    if leadsWithList (p :: ps) (c :: rest) then removeAllAux p ps ps.length rest
    else c :: removeAllAux p ps 0 rest
  | k + 1, _ :: rest => removeAllAux p ps k rest

/-- Embedding of `text.replace(/lit/g, '')` for the literal pattern
`p :: ps`. -/
def removeAll (p : Char) (ps : List Char) (s : List Char) : List Char :=
  removeAllAux p ps 0 s

def fenceJsonTail : List Char := [backtick, backtick, 'j', 's', 'o', 'n']

def fenceTail : List Char := [backtick, backtick]

/-- The literal `` ```json `` fence marker. -/
def jsonFenceWord : List Char := backtick :: fenceJsonTail

/-- The literal ``` ``` ``` fence marker. -/
def fenceWord : List Char := backtick :: fenceTail

/-- Embedding of `cleanJsonResponse` from `src/app/api/extract/route.ts`:
remove every occurrence of the json code-fence marker, then of the bare
code-fence marker; replace everything up to and including the first `{` by
`{` (a no-op when there is none); replace the last `}` and everything after
it by `}` (a no-op when there is none); trim. -/
def cleanJsonResponse (s : List Char) : List Char :=
  let s1 := removeAll backtick fenceJsonTail s
  let s2 := removeAll backtick fenceTail s1
  let s3 := (fromChar '{' s2).getD s2
  let s4 := ((fromChar '}' s3.reverse).getD s3.reverse).reverse
  jsTrim s4

theorem leadsWith_self : ∀ x y : List Char, leadsWithList x (x ++ y) = true
  | [], _ => rfl
  | c :: cs, y => by simp [leadsWithList, leadsWith_self cs y]

theorem removeAllAux_skip (p : Char) (ps : List Char) :
    ∀ x b : List Char, removeAllAux p ps x.length (x ++ b) = removeAllAux p ps 0 b
  | [], _ => rfl
  | _ :: x', b => by
    show removeAllAux p ps (x'.length + 1) (_ :: (x' ++ b)) = _
    rw [removeAllAux]
    exact removeAllAux_skip p ps x' b

theorem removeAll_append_of_not_mem {p : Char} {ps : List Char} :
    ∀ {a : List Char} (b : List Char), p ∉ a →
      removeAll p ps (a ++ b) = a ++ removeAll p ps b
  | [], _, _ => rfl
  | c :: a', b, h => by
    have hcp : p ≠ c := fun e => h (by rw [e]; exact List.mem_cons_self c a')
    have hlead : ¬ (leadsWithList (p :: ps) (c :: (a' ++ b)) = true) := by
      simp [leadsWithList, hcp]
    have hrec := @removeAll_append_of_not_mem p ps a' b
      (fun hm => h (List.mem_cons_of_mem c hm))
    show (if leadsWithList (p :: ps) (c :: (a' ++ b)) = true
          then removeAllAux p ps ps.length (a' ++ b)
          else c :: removeAllAux p ps 0 (a' ++ b)) = (c :: a') ++ removeAll p ps b
    rw [if_neg hlead, List.cons_append]
    exact congrArg (c :: .) hrec

theorem removeAll_of_not_mem {p : Char} {ps x : List Char} (h : p ∉ x) :
    removeAll p ps x = x := by
  have h2 := @removeAll_append_of_not_mem p ps x [] h
  rw [List.append_nil] at h2
  rw [h2]
  show x ++ ([] : List Char) = x
  exact List.append_nil x

theorem removeAll_consume (p : Char) (ps b : List Char) :
    removeAll p ps ((p :: ps) ++ b) = removeAll p ps b := by
  show (if leadsWithList (p :: ps) (p :: (ps ++ b)) = true
        then removeAllAux p ps ps.length (ps ++ b)
        else p :: removeAllAux p ps 0 (ps ++ b)) = removeAll p ps b
  rw [if_pos (show leadsWithList (p :: ps) (p :: (ps ++ b)) = true from
    leadsWith_self (p :: ps) b)]
  exact removeAllAux_skip p ps ps b

theorem mem_removeAllAux {p : Char} {ps : List Char} {x : Char} :
    ∀ {k : Nat} {s : List Char}, x ∈ removeAllAux p ps k s → x ∈ s := by
  intro k s
  induction s generalizing k with
  | nil => intro h; cases k <;> simp [removeAllAux] at h
  | cons c rest ih =>
    intro h
    match k with
    | 0 =>
      rw [removeAllAux] at h
      by_cases hl : leadsWithList (p :: ps) (c :: rest)
      · rw [if_pos hl] at h
        exact List.mem_cons_of_mem c (ih h)
      · rw [if_neg hl] at h
        rcases List.mem_cons.mp h with h | h
        · exact h ▸ List.mem_cons_self c rest
        · exact List.mem_cons_of_mem c (ih h)
    | k + 1 =>
      rw [removeAllAux] at h
      exact List.mem_cons_of_mem c (ih h)

theorem mem_removeAll {p : Char} {ps s : List Char} {x : Char}
    (h : x ∈ removeAll p ps s) : x ∈ s := mem_removeAllAux h

theorem fromChar_append_of_not_mem {t : Char} :
    ∀ {a : List Char} (x : List Char), t ∉ a →
      fromChar t (a ++ x) = fromChar t x
  | [], _, _ => rfl
  | c :: a', x, h => by
    have hct : c ≠ t := fun e => h (by simp [e])
    show fromChar t (c :: (a' ++ x)) = _
    rw [fromChar, if_neg hct]
    exact fromChar_append_of_not_mem x (fun hm => h (by simp [hm]))

theorem fromChar_self (t : Char) (x : List Char) :
    fromChar t (t :: x) = some (t :: x) := by
  rw [fromChar, if_pos rfl]

/-- Trimming a string that starts with `{` and ends with `}` is a no-op. -/
theorem jsTrim_braced (m : List Char) :
    jsTrim ('{' :: (m ++ ['}'])) = '{' :: (m ++ ['}']) := by
  have hrev : ('{' :: (m ++ ['}'])).reverse = '}' :: (m.reverse ++ ['{']) := by
    simp
  unfold jsTrim
  rw [List.dropWhile_cons_of_neg (by decide), hrev,
    List.dropWhile_cons_of_neg (by decide), ← hrev, List.reverse_reverse]

theorem jsonFenceWord_eq : jsonFenceWord = backtick :: fenceJsonTail := rfl

theorem fenceWord_eq : fenceWord = backtick :: fenceTail := rfl

/-- Cleaning an already-clean JSON object string (no backticks, starts with
`{`, ends with `}`) is the identity. -/
theorem cleanJsonResponse_braced (m : List Char) (hm : backtick ∉ m) :
    cleanJsonResponse ('{' :: (m ++ ['}'])) = '{' :: (m ++ ['}']) := by
  have hbs : backtick ∉ '{' :: (m ++ ['}']) := by
    intro hmem
    rcases List.mem_cons.mp hmem with h | h
    · exact absurd h (by decide)
    · rcases List.mem_append.mp h with h | h
      · exact hm h
      · exact absurd (List.mem_singleton.mp h) (by decide)
  have hrev : ('{' :: (m ++ ['}'])).reverse = '}' :: (m.reverse ++ ['{']) := by
    simp
  simp only [cleanJsonResponse]
  rw [removeAll_of_not_mem hbs, removeAll_of_not_mem hbs, fromChar_self,
    Option.getD_some, hrev, fromChar_self, Option.getD_some, ← hrev,
    List.reverse_reverse]
  exact jsTrim_braced m

/-- Claim C8: response normalization is invariant under prose/fence wrapping.
For every clean JSON object string (starting with `{`, ending with `}`,
backtick-free) and every leading prose without `{` or backticks and trailing
prose without `}` or backticks, cleaning the string wrapped in code-fence
markers with that prose yields exactly the clean string itself — so parsing
the two cleanups yields identical objects.  (Backticks in the trailing prose
are harmless: fence removal only deletes characters there.) -/
theorem cleanJsonResponse_spec (m p1 p2 : List Char)
    (hm : backtick ∉ m) (hp1b : backtick ∉ p1) (hp1o : '{' ∉ p1)
    (hp2c : '}' ∉ p2) :
    cleanJsonResponse
        (p1 ++ (jsonFenceWord ++ (('{' :: (m ++ ['}'])) ++ (fenceWord ++ p2))))
      = cleanJsonResponse ('{' :: (m ++ ['}'])) ∧
    cleanJsonResponse ('{' :: (m ++ ['}'])) = '{' :: (m ++ ['}']) := by
  have hbraced := cleanJsonResponse_braced m hm
  refine ⟨?_, hbraced⟩
  rw [hbraced]
  have hbs : backtick ∉ '{' :: (m ++ ['}']) := by
    intro hmem
    rcases List.mem_cons.mp hmem with h | h
    · exact absurd h (by decide)
    · rcases List.mem_append.mp h with h | h
      · exact hm h
      · exact absurd (List.mem_singleton.mp h) (by decide)
  have e1 : removeAll backtick fenceJsonTail
      (p1 ++ (jsonFenceWord ++ (('{' :: (m ++ ['}'])) ++ (fenceWord ++ p2))))
      = p1 ++ (('{' :: (m ++ ['}']))
          ++ removeAll backtick fenceJsonTail (fenceWord ++ p2)) := by
    rw [removeAll_append_of_not_mem _ hp1b, jsonFenceWord_eq, removeAll_consume,
      removeAll_append_of_not_mem _ hbs]
  have e2 : removeAll backtick fenceTail
      (p1 ++ (('{' :: (m ++ ['}']))
        ++ removeAll backtick fenceJsonTail (fenceWord ++ p2)))
      = p1 ++ (('{' :: (m ++ ['}']))
          ++ removeAll backtick fenceTail
              (removeAll backtick fenceJsonTail (fenceWord ++ p2))) := by
    rw [removeAll_append_of_not_mem _ hp1b, removeAll_append_of_not_mem _ hbs]
  have ht2 : '}' ∉ removeAll backtick fenceTail
      (removeAll backtick fenceJsonTail (fenceWord ++ p2)) := by
    intro hmem
    have h2 := mem_removeAll (mem_removeAll hmem)
    rcases List.mem_append.mp h2 with h3 | h3
    · exact absurd h3 (by decide)
    · exact hp2c h3
  have ht2r : '}' ∉ (removeAll backtick fenceTail
      (removeAll backtick fenceJsonTail (fenceWord ++ p2))).reverse := by
    simpa [List.mem_reverse] using ht2
  have hrev3 : ('{' :: ((m ++ ['}'])
        ++ removeAll backtick fenceTail
            (removeAll backtick fenceJsonTail (fenceWord ++ p2)))).reverse
      = (removeAll backtick fenceTail
          (removeAll backtick fenceJsonTail (fenceWord ++ p2))).reverse
        ++ ('}' :: (m.reverse ++ ['{'])) := by
    simp
  have hrev4 : ('}' :: (m.reverse ++ ['{'])).reverse = '{' :: (m ++ ['}']) := by
    simp
  simp only [cleanJsonResponse]
  rw [e1, e2, fromChar_append_of_not_mem _ hp1o, List.cons_append,
    fromChar_self, Option.getD_some, hrev3,
    fromChar_append_of_not_mem _ ht2r, fromChar_self, Option.getD_some, hrev4]
  exact jsTrim_braced m

/-- Witness for C8: a concrete clean JSON string and concrete prose. -/
theorem cleanJsonResponse_spec_witness :
    cleanJsonResponse
        (("Here is the recipe: " : String).data
          ++ (jsonFenceWord
            ++ (('{' :: ((" \"name\": \"Pasta\" " : String).data ++ ['}']))
              ++ (fenceWord ++ (" Enjoy!" : String).data))))
      = '{' :: ((" \"name\": \"Pasta\" " : String).data ++ ['}']) := by
  have h := cleanJsonResponse_spec (" \"name\": \"Pasta\" " : String).data
    ("Here is the recipe: " : String).data (" Enjoy!" : String).data
    (by decide) (by decide) (by decide) (by decide)
  rw [h.1, h.2]

end VibeRecipe
